import Mathlib

/-!
# Verification of the scan-locks dependency extraction engine

Shallow embedding of `src/scan-locks.js`: the three extraction routines
(`extractFromNpmLock`, `extractFromYarnLockV1`, `extractFromPackageJson`),
the deduplication (`dedupeRows`) and the sort used by `main`, together with
proofs about them.

Modelling conventions:
* JavaScript values decoded from JSON (plus `undefined`) are modelled by the
  inductive type `JSVal`.  Numbers are modelled as integers (`Int`): the
  program performs no arithmetic, so only truthiness (`0` vs non-`0`) and
  decimal printing of a number are observable.
* JavaScript objects are association lists in insertion order; property
  lookup takes the first binding (JSON objects have distinct keys).
* Strings are manipulated through their character lists (`List Char`), with
  executable structural definitions mirroring the JavaScript string and
  regular-expression operations used by the source.
* `localeCompare` is modelled as code-point lexicographic comparison, and
  `Array.prototype.sort` (stable per the ECMAScript specification) as the
  stable `List.insertionSort`.
-/

/-- A JavaScript value as produced by `JSON.parse`, extended with
`undefined` (the result of a missing-property access). -/
inductive JSVal : Type where
  | vundef : JSVal
  | vnull : JSVal
  | vbool : Bool → JSVal
  | vnum : Int → JSVal
  | vstr : String → JSVal
  | varr : List JSVal → JSVal
  | vobj : List (String × JSVal) → JSVal

open JSVal

/-- JavaScript truthiness: `undefined`, `null`, `false`, `0`, and the empty
string are falsy; objects and arrays are always truthy. -/
def truthy : JSVal → Bool
  | vundef => false
  | vnull => false
  | vbool b => b
  | vnum n => n != 0
  | vstr s => s != ""
  | varr _ => true
  | vobj _ => true

/-- The test `typeof v === 'object'`: true for objects, arrays and `null`. -/
def typeofObject : JSVal → Bool
  | vnull => true
  | varr _ => true
  | vobj _ => true
  | _ => false

/-- First-match lookup in an association list, returning `undefined` when
the key is absent (JavaScript property access on plain objects). -/
def lookupField : List (String × JSVal) → String → JSVal
  | [], _ => vundef
  | (k, v) :: rest, key => if k = key then v else lookupField rest key

/-- JavaScript property access `v[key]`.  On objects it is association-list
lookup; on arrays, a canonical numeric-index string selects the element;
every other access (including any property of a primitive reachable in the
source, which only uses fixed non-index key names) yields `undefined`. -/
def getField : JSVal → String → JSVal
  | vobj fields, key => lookupField fields key
  | varr xs, key =>
      match key.toNat? with
      | some i => if toString i = key then xs.getD i vundef else vundef
      | none => vundef
  | _, _ => vundef

/-- Pairs `(toString i, x)` for the elements of a list, starting at index
`i₀` (the entries of a JavaScript array). -/
def indexedPairs (i₀ : Nat) : List JSVal → List (String × JSVal)
  | [] => []
  | x :: rest => (toString i₀, x) :: indexedPairs (i₀ + 1) rest

/-- Model of `Object.entries v`: own enumerable string-keyed entries.  Objects give
their bindings in order, arrays their indexed elements, strings their
indexed one-character substrings, and other primitives nothing.  (The
source never reaches `Object.entries(null)`, which would throw.) -/
def jsEntries : JSVal → List (String × JSVal)
  | vobj fields => fields
  | varr xs => indexedPairs 0 xs
  | vstr s => indexedPairs 0 (s.toList.map (fun c => vstr (String.mk [c])))
  | _ => []

/-- Model of `Object.keys v`, as used on the `packages` mapping. -/
def jsKeys : JSVal → List String
  | vobj fields => fields.map Prod.fst
  | varr xs => (indexedPairs 0 xs).map Prod.fst
  | vstr s => (indexedPairs 0 (s.toList.map (fun c => vstr (String.mk [c])))).map Prod.fst
  | _ => []

/-- Strict comparison `v === true`, the test applied to the `dev` and `optional`
flags. -/
def isLiterallyTrue : JSVal → Bool
  | vbool true => true
  | _ => false

/-- JavaScript `String(v)` for array elements inside `Array.prototype.join`:
`null` and `undefined` print as the empty string there. -/
def jsToString : JSVal → String
  | vundef => "undefined"
  | vnull => "null"
  | vbool b => if b then "true" else "false"
  | vnum n => toString n
  | vstr s => s
  | vobj _ => "[object Object]"
  | varr xs =>
      String.intercalate "," (xs.attach.map (fun p =>
        match p with
        | ⟨vnull, _⟩ => ""
        | ⟨vundef, _⟩ => ""
        | ⟨y, hy⟩ => jsToString y))
decreasing_by
  have h1 : sizeOf y < sizeOf xs := List.sizeOf_lt_of_mem hy
  simp only [JSVal.varr.sizeOf_spec]
  omega

/-! ## Character-list string operations

Executable models of the JavaScript string and regular-expression
operations used by the source, working on `List Char`. -/

/-- The whitespace class used by `trim` and `\s` (the source only ever
meets spaces, tabs, carriage returns and newlines). -/
def wsChar (c : Char) : Bool :=
  c = ' ' || c = '\t' || c = '\n' || c = '\r'

/-- Drop trailing characters satisfying `p`. -/
def dropWhileEnd (p : Char → Bool) (l : List Char) : List Char :=
  (l.reverse.dropWhile p).reverse

/-- Model of `String.prototype.trim`. -/
def trimL (l : List Char) : List Char :=
  dropWhileEnd wsChar (l.dropWhile wsChar)

/-- Model of `split(c)` with a single-character separator. -/
def splitOnCharL (sep : Char) : List Char → List (List Char)
  | [] => [[]]
  | c :: rest =>
      if c = sep then [] :: splitOnCharL sep rest
      else
        match splitOnCharL sep rest with
        | [] => [[c]]
        | h :: t => (c :: h) :: t

/-- Model of `split(sep)` with a non-empty multi-character separator string:
non-overlapping matches scanned left to right. -/
def splitSeqGo (sep : List Char) (acc : List Char) : List Char → List (List Char)
  | [] => [acc.reverse]
  | c :: rest =>
      if h : sep ≠ [] ∧ (c :: rest).take sep.length = sep then
        acc.reverse :: splitSeqGo sep [] ((c :: rest).drop sep.length)
      else
        splitSeqGo sep (c :: acc) rest
termination_by l => l.length
decreasing_by
  · have hlen : sep.length ≠ 0 := fun hz => h.1 (List.eq_nil_of_length_eq_zero hz)
    simp only [List.length_drop]
    simp only [List.length_cons]
    omega
  · simp

/-- Wrapper used for `pkgPath.split('node_modules/')` and friends. -/
def splitSeqL (sep : List Char) (l : List Char) : List (List Char) :=
  splitSeqGo sep [] l

/-- Splitting on `/\n{2,}/`: separators are maximal runs of at least two
newlines (the Yarn block separator). -/
def splitBlocksL : List Char → List Char → List (List Char)
  | acc, [] => [acc.reverse]
  | acc, '\n' :: '\n' :: rest =>
      acc.reverse :: splitBlocksL [] (rest.dropWhile (· = '\n'))
  | acc, c :: rest => splitBlocksL (c :: acc) rest
termination_by _ l => l.length
decreasing_by
  · have := (List.dropWhile_sublist (l := rest) (p := fun c => decide (c = '\n'))).length_le
    simp only [List.length_cons]
    omega
  · simp

/-- Index of the last occurrence of `c`, if any (`lastIndexOf`). -/
def lastIdxOf (c : Char) : List Char → Option Nat
  | [] => none
  | a :: rest =>
      match lastIdxOf c rest with
      | some j => some (j + 1)
      | none => if a = c then some 0 else none

/-- Strip a leading run and a trailing run of double quotes, the effect of
`replace(/^"+|"+$/g, '')`. -/
def stripQuoteRuns (l : List Char) : List Char :=
  dropWhileEnd (· = '"') (l.dropWhile (· = '"'))

/-! ## The occurrence record and the target set -/

/-- The fixed `TARGETS` set of the script. -/
def TARGETS : List String :=
  ["eslint-config-prettier", "eslint-plugin-prettier", "synckit", "@pkgr/core",
   "napi-postinstall", "got-fetch", "is"]

/-- An occurrence record, the element shape pushed into `rows`. -/
structure Row where
  package : String
  version : String
  dev : Bool
  optional : Bool
  source : String
  lockfilePath : String
deriving DecidableEq

/-- The template-literal deduplication key
`${lockfilePath}::${package}::${version}::${source}`. -/
def rowKey (r : Row) : String :=
  r.lockfilePath ++ "::" ++ r.package ++ "::" ++ r.version ++ "::" ++ r.source

/-! ## NPM lock extraction -/

/-- The record pushed for a matched npm-lock entry: `version` is
`info.version || ''` (coerced to a string in the model), and the flags test
`=== true`. -/
def mkNpmRow (name : String) (info : JSVal) (path : String) : Row :=
  { package := name
    version := if truthy (getField info "version") then jsToString (getField info "version") else ""
    dev := isLiterallyTrue (getField info "dev")
    optional := isLiterallyTrue (getField info "optional")
    source := "npm-lock"
    lockfilePath := path }

/-- One iteration of the v1 `dependencies` loop body, emission part:
a falsy `meta` is skipped, a target name is pushed. -/
def v1Emit (path : String) (e : String × JSVal) : List Row :=
  if truthy e.2 then (if e.1 ∈ TARGETS then [mkNpmRow e.1 e.2 path] else []) else []

/-- One iteration of the v1 loop body, stack part: `meta.dependencies` is
pushed when `meta` and it are truthy. -/
def pushOf (e : String × JSVal) : Option JSVal :=
  if truthy e.2 && truthy (getField e.2 "dependencies") then
    some (getField e.2 "dependencies")
  else none

theorem sizeOf_lookupField_lt (fields : List (String × JSVal)) (k : String) :
    sizeOf (lookupField fields k) < 1 + sizeOf fields := by
  induction fields with
  | nil => simp [lookupField]
  | cons e rest ih =>
      obtain ⟨a, b⟩ := e
      simp only [lookupField]
      split
      · simp only [List.cons.sizeOf_spec, Prod.mk.sizeOf_spec]
        omega
      · simp only [List.cons.sizeOf_spec, Prod.mk.sizeOf_spec]
        omega

theorem sizeOf_getField_of_truthy {m : JSVal} {k : String}
    (h : truthy (getField m k) = true) : sizeOf (getField m k) < sizeOf m := by
  cases m with
  | vobj fields =>
      have := sizeOf_lookupField_lt fields k
      simp only [getField] at *
      simp only [JSVal.vobj.sizeOf_spec]
      omega
  | varr xs =>
      simp only [getField] at h ⊢
      cases hk : k.toNat? with
      | none => simp [hk, truthy] at h
      | some i =>
          simp only [hk] at h ⊢
          by_cases hik : toString i = k
          · simp only [if_pos hik] at h ⊢
            by_cases hi : i < xs.length
            · have hmem : xs.getD i vundef ∈ xs := by
                rw [List.getD_eq_getElem?_getD, List.getElem?_eq_getElem hi, Option.getD_some]
                exact List.getElem_mem hi
              have := List.sizeOf_lt_of_mem hmem
              simp only [JSVal.varr.sizeOf_spec]
              omega
            · rw [List.getD_eq_default _ _ (by omega)] at h
              simp [truthy] at h
          · simp [if_neg hik, truthy] at h
  | vundef => simp [getField, truthy] at h
  | vnull => simp [getField, truthy] at h
  | vbool b => simp [getField, truthy] at h
  | vnum n => simp [getField, truthy] at h
  | vstr s => simp [getField, truthy] at h

theorem pushes_sum_le (ents : List (String × JSVal)) :
    ((ents.filterMap pushOf).map sizeOf).sum < 1 + (ents.map (fun e => sizeOf e.2)).sum := by
  induction ents with
  | nil => simp
  | cons e rest ih =>
      cases hp : pushOf e with
      | none =>
          simp only [List.filterMap_cons, hp, List.map_cons, List.sum_cons]
          omega
      | some p =>
          have hlt : sizeOf p < sizeOf e.2 := by
            simp only [pushOf] at hp
            split at hp
            · rename_i hcond
              cases hp
              exact sizeOf_getField_of_truthy (by
                simp only [Bool.and_eq_true] at hcond
                exact hcond.2)
            · cases hp
          simp only [List.filterMap_cons, hp, List.map_cons, List.sum_cons]
          omega

theorem snd_indexedPairs (i₀ : Nat) (xs : List JSVal) :
    (indexedPairs i₀ xs).map Prod.snd = xs := by
  induction xs generalizing i₀ with
  | nil => simp [indexedPairs]
  | cons x rest ih => simp [indexedPairs, ih]

theorem snds_sum_le (fields : List (String × JSVal)) :
    (fields.map (fun e => sizeOf e.2)).sum ≤ sizeOf fields := by
  induction fields with
  | nil => simp
  | cons e rest ih =>
      obtain ⟨a, b⟩ := e
      simp only [List.map_cons, List.sum_cons, List.cons.sizeOf_spec, Prod.mk.sizeOf_spec]
      omega

theorem elts_sum_le (xs : List JSVal) :
    (xs.map sizeOf).sum ≤ sizeOf xs := by
  induction xs with
  | nil => simp
  | cons x rest ih =>
      simp only [List.map_cons, List.sum_cons, List.cons.sizeOf_spec]
      omega

theorem pushes_sum_lt (deps : JSVal) :
    (((jsEntries deps).filterMap pushOf).map sizeOf).sum < sizeOf deps := by
  cases deps with
  | vobj fields =>
      have h1 := pushes_sum_le (jsEntries (vobj fields))
      have h2 : ((jsEntries (vobj fields)).map (fun e => sizeOf e.2)).sum ≤ sizeOf fields := by
        simpa [jsEntries] using snds_sum_le fields
      simp only [JSVal.vobj.sizeOf_spec]
      simp only [jsEntries] at *
      omega
  | varr xs =>
      have h1 := pushes_sum_le (jsEntries (varr xs))
      have h2 : ((jsEntries (varr xs)).map (fun e => sizeOf e.2)).sum ≤ sizeOf xs := by
        have hm : (jsEntries (varr xs)).map (fun e => sizeOf e.2)
            = xs.map sizeOf := by
          have := snd_indexedPairs 0 xs
          calc (jsEntries (varr xs)).map (fun e => sizeOf e.2)
              = ((jsEntries (varr xs)).map Prod.snd).map sizeOf := by
                simp [List.map_map, Function.comp]
            _ = xs.map sizeOf := by simp [jsEntries, this]
        rw [hm]
        exact elts_sum_le xs
      simp only [JSVal.varr.sizeOf_spec]
      omega
  | vstr s =>
      have hnone : ∀ e ∈ jsEntries (vstr s), pushOf e = none := by
        intro e he
        have hsnd : e.2 ∈ (jsEntries (vstr s)).map Prod.snd := List.mem_map_of_mem _ he
        rw [show jsEntries (vstr s) = indexedPairs 0 (s.toList.map (fun c => vstr (String.mk [c]))) from rfl,
          snd_indexedPairs] at hsnd
        obtain ⟨c, _, hc⟩ := List.mem_map.mp hsnd
        simp only [pushOf, ← hc, getField, truthy, Bool.and_false]
        simp
      rw [List.filterMap_eq_nil_iff.mpr hnone]
      simp only [List.map_nil, List.sum_nil, JSVal.vstr.sizeOf_spec]
      omega
  | vundef => simp [jsEntries]
  | vnull => simp [jsEntries]
  | vbool b => simp [jsEntries]
  | vnum n => simp [jsEntries]

/-- The v1 (`dependencies`) traversal: an explicit work stack, as in the
source (`stack.pop()` takes the most recently pushed object, so the stack
is modelled head-first: entries of the current object are emitted in order,
their `dependencies` objects pushed, latest processed first). -/
def npmV1Walk (path : String) : List JSVal → List Row
  | [] => []
  | deps :: rest =>
      (jsEntries deps).flatMap (v1Emit path) ++
        npmV1Walk path (((jsEntries deps).filterMap pushOf).reverse ++ rest)
termination_by stack => (stack.map sizeOf).sum
decreasing_by
  simp only [List.map_append, List.sum_append, List.map_cons, List.sum_cons,
    List.map_reverse, List.sum_reverse]
  have h := pushes_sum_lt x
  omega

/-- The `name` value the v2/v3 loop ends up with for one key: `info.name`
when truthy, otherwise the last non-empty piece of splitting the key on
`node_modules/` with one trailing slash stripped (the falsy `info.name` is
kept when there is no such piece). -/
def npmDerivedNameV (pkgPath : String) (info : JSVal) : JSVal :=
  if truthy (getField info "name") then getField info "name"
  else
    match ((splitSeqL "node_modules/".toList pkgPath.toList).filter (· ≠ [])).getLast? with
    | some seg => vstr (String.mk (if seg.getLast? = some '/' then seg.dropLast else seg))
    | none => getField info "name"

/-- The body of the v2/v3 `packages` loop for one key: normalise the entry
with `|| {}`, derive the name, and emit when the name is truthy and a
target. -/
def npmPkgsEmit (lockfilePath pkgPath : String) (info0 : JSVal) : List Row :=
  match npmDerivedNameV pkgPath (if truthy info0 then info0 else vobj []) with
  | vstr name =>
      if name ≠ "" && name ∈ TARGETS then
        [mkNpmRow name (if truthy info0 then info0 else vobj []) lockfilePath]
      else []
  | _ => []

/-- The function `extractFromNpmLock` from the source: the v2/v3 `packages` branch
followed by the v1 `dependencies` branch. -/
def extractFromNpmLock (lockJson : JSVal) (lockfilePath : String) : List Row :=
  (let pk := getField lockJson "packages"
   if truthy lockJson && truthy pk && typeofObject pk then
     (jsKeys pk).flatMap (fun pkgPath => npmPkgsEmit lockfilePath pkgPath (getField pk pkgPath))
   else []) ++
  (let deps := getField lockJson "dependencies"
   if truthy lockJson && truthy deps && typeofObject deps then
     npmV1Walk lockfilePath [deps]
   else [])

/-! ## Yarn v1 extraction -/

/-- Model of `selector.lastIndexOf('@')`: `-1` when absent. -/
def jsLastIndexOf (c : Char) (l : List Char) : Int :=
  match lastIdxOf c l with
  | none => -1
  | some i => (i : Int)

/-- The function `selectorToPkgName` from the source: strip wrapping quotes, take the
text before the last `@`; `null` (here `none`) when there is no `@` or it
is the first character. -/
def selectorToPkgName (selector : String) : Option String :=
  if jsLastIndexOf '@' (stripQuoteRuns selector.toList) ≤ 0 then none
  else
    some (String.mk ((stripQuoteRuns selector.toList).take
      (jsLastIndexOf '@' (stripQuoteRuns selector.toList)).toNat))

/-- The `startsWith` test: `l.take pre.length = pre`. -/
def startsWithL (pre l : List Char) : Bool :=
  l.take pre.length = pre

/-- Header normalisation
`.replace(/^"/,'').replace(/":?$/,':').replace(/:$/,'').split(/,\s*/)`:
the end-anchored replacements act on the reversed list, and splitting on
`/,\s*/` is splitting on `,` followed by stripping leading whitespace from
the later pieces. -/
def headerSelectorsL (header : List Char) : List (List Char) :=
  let h1 := if header.take 1 = ['"'] then header.drop 1 else header
  let h2 :=
    match h1.reverse with
    | ':' :: '"' :: rinit => (':' :: rinit).reverse
    | '"' :: rinit => (':' :: rinit).reverse
    | _ => h1
  let h3 := match h2.reverse with
    | ':' :: rinit => rinit.reverse
    | _ => h2
  match splitOnCharL ',' h3 with
  | [] => []
  | first :: later => first :: later.map (fun p => p.dropWhile wsChar)

/-- The capture of `/^version\s+"([^"]+)"/`. -/
def quotedVersionCapture (l : List Char) : Option (List Char) :=
  if l.take 7 = "version".toList then
    let rest := l.drop 7
    let rest2 := rest.dropWhile wsChar
    if rest2.length = rest.length then none
    else
      match rest2 with
      | '"' :: more =>
          let v := more.takeWhile (fun c => c != '"')
          if v = [] then none
          else if (more.drop v.length).take 1 = ['"'] then some v else none
      | _ => none
  else none

/-- The version a block yields: the regex capture of the first trimmed line
starting with `version `, else the empty string. -/
def yarnBlockVersion (lines : List (List Char)) : String :=
  match lines.find? (fun l => startsWithL "version ".toList l) with
  | none => ""
  | some l =>
      match quotedVersionCapture l with
      | none => ""
      | some v => String.mk v

/-- The trimmed lines of a block, as the source computes them. -/
def yarnLines (block : List Char) : List (List Char) :=
  (splitOnCharL '\n' block).map trimL

/-- The header line of a block (`lines[0]`). -/
def yarnHeader (block : List Char) : List Char :=
  (yarnLines block).headD []

/-- One (already trimmed) block of a Yarn v1 lockfile: skip empty blocks
and comment headers, then emit one record per target selector, all sharing
the block version. -/
def yarnBlockRows (block : List Char) (path : String) : List Row :=
  if block = [] then []
  else
    if yarnHeader block = [] || (yarnHeader block).take 1 = ['#'] then []
    else
      (headerSelectorsL (yarnHeader block)).flatMap (fun sel =>
        match selectorToPkgName (String.mk sel) with
        | none => []
        | some name =>
            if name ∈ TARGETS then
              [{ package := name, version := yarnBlockVersion (yarnLines block), dev := false,
                 optional := false, source := "yarn-lock", lockfilePath := path }]
            else [])

/-- The function `extractFromYarnLockV1` from the source. -/
def extractFromYarnLockV1 (text : String) (lockfilePath : String) : List Row :=
  (splitBlocksL [] text.toList).flatMap (fun blockRaw =>
    yarnBlockRows (trimL blockRaw) lockfilePath)

/-! ## package.json extraction -/

/-- The function `extractFromPackageJson` from the source: the three dependency buckets
with their fixed flags. -/
def extractFromPackageJson (pkgJson : JSVal) (lockfilePath : String) : List Row :=
  [("dependencies", false, false), ("devDependencies", true, false),
   ("optionalDependencies", false, true)].flatMap
    (fun b =>
      let deps := getField pkgJson b.1
      if truthy deps && typeofObject deps then
        (jsEntries deps).flatMap (fun e =>
          if e.1 ∈ TARGETS then
            [{ package := e.1
               version := if truthy e.2 then jsToString e.2 else ""
               dev := b.2.1, optional := b.2.2
               source := "package-json", lockfilePath := lockfilePath }]
          else [])
      else [])

/-! ## Aggregation: sort and deduplication -/

/-- The loop of `dedupeRows` with its `seen` set of key strings. -/
def dedupeGo (seen : List String) : List Row → List Row
  | [] => []
  | r :: rs =>
      if seen.contains (rowKey r) then dedupeGo seen rs
      else r :: dedupeGo (rowKey r :: seen) rs

/-- The function `dedupeRows` from the source. -/
def dedupeRows (rows : List Row) : List Row :=
  dedupeGo [] rows

/-- The sort comparator of `main`, as a relation: primary key `package`,
secondary key `lockfilePath` on ties (`localeCompare` modelled as
code-point lexicographic comparison). -/
def rowle (a b : Row) : Prop :=
  if a.package = b.package then a.lockfilePath.toList ≤ b.lockfilePath.toList
  else a.package.toList < b.package.toList

instance rowle.dec : DecidableRel rowle := fun a b => by
  unfold rowle
  infer_instance

/-- Model of `rows.sort(comparator)`: a stable sort, per the ECMAScript spec. -/
def sortRows (rows : List Row) : List Row :=
  List.insertionSort rowle rows

/-- The aggregation performed by `main`: sort, then deduplicate. -/
def aggregateRows (rows : List Row) : List Row :=
  dedupeRows (sortRows rows)

/-! ## Properties of deduplication -/

/-- Specification-side deduplication: keep the first record with each key
string; every later record whose key matches an earlier one is dropped. -/
def dedupeFirstOccurrence : List Row → List Row
  | [] => []
  | r :: rs => r :: dedupeFirstOccurrence (rs.filter (fun x => rowKey x != rowKey r))
termination_by l => l.length
decreasing_by
  have := List.length_filter_le (fun x => rowKey x != rowKey r) rs
  simp only [List.length_cons]
  omega

theorem dedupeGo_eq_firstOcc (l : List Row) :
    ∀ seen, dedupeGo seen l
      = dedupeFirstOccurrence (l.filter (fun r => !decide (rowKey r ∈ seen))) := by
  induction l with
  | nil => intro seen; simp [dedupeGo, dedupeFirstOccurrence]
  | cons r rs ih =>
      intro seen
      by_cases h : rowKey r ∈ seen
      · rw [show dedupeGo seen (r :: rs) = dedupeGo seen rs from by simp [dedupeGo, h]]
        rw [ih seen]
        congr 1
        simp [List.filter_cons, h]
      · have hfil : (r :: rs).filter (fun x => !decide (rowKey x ∈ seen))
            = r :: rs.filter (fun x => !decide (rowKey x ∈ seen)) := by
          simp [List.filter_cons, h]
        rw [show dedupeGo seen (r :: rs) = r :: dedupeGo (rowKey r :: seen) rs from by
          simp [dedupeGo, h]]
        rw [hfil, dedupeFirstOccurrence]
        congr 1
        rw [ih (rowKey r :: seen)]
        congr 1
        rw [List.filter_filter]
        apply List.filter_congr
        intro x _
        by_cases hx : rowKey x = rowKey r <;> by_cases hs : rowKey x ∈ seen <;>
          simp [hx, hs, List.mem_cons]
  

theorem dedupeRows_eq_firstOcc (rows : List Row) :
    dedupeRows rows = dedupeFirstOccurrence rows := by
  rw [dedupeRows, dedupeGo_eq_firstOcc]
  congr 1
  simp

theorem dedupeGo_sublist (l : List Row) : ∀ seen, (dedupeGo seen l).Sublist l := by
  induction l with
  | nil => intro seen; simp [dedupeGo]
  | cons r rs ih =>
      intro seen
      by_cases h : rowKey r ∈ seen
      · rw [show dedupeGo seen (r :: rs) = dedupeGo seen rs from by simp [dedupeGo, h]]
        exact (ih seen).cons r
      · rw [show dedupeGo seen (r :: rs) = r :: dedupeGo (rowKey r :: seen) rs from by
          simp [dedupeGo, h]]
        exact (ih (rowKey r :: seen)).cons₂ r

theorem dedupeGo_avoids (l : List Row) :
    ∀ seen r, r ∈ dedupeGo seen l → rowKey r ∉ seen := by
  induction l with
  | nil => intro seen r hr; simp [dedupeGo] at hr
  | cons x rs ih =>
      intro seen r hr
      by_cases h : rowKey x ∈ seen
      · rw [show dedupeGo seen (x :: rs) = dedupeGo seen rs from by simp [dedupeGo, h]] at hr
        exact ih seen r hr
      · rw [show dedupeGo seen (x :: rs) = x :: dedupeGo (rowKey x :: seen) rs from by
          simp [dedupeGo, h]] at hr
        rcases List.mem_cons.mp hr with rfl | hr'
        · exact h
        · have := ih (rowKey x :: seen) r hr'
          intro hmem
          exact this (List.mem_cons_of_mem _ hmem)

theorem dedupeGo_keys_nodup (l : List Row) :
    ∀ seen, ((dedupeGo seen l).map rowKey).Nodup := by
  induction l with
  | nil => intro seen; simp [dedupeGo]
  | cons x rs ih =>
      intro seen
      by_cases h : rowKey x ∈ seen
      · rw [show dedupeGo seen (x :: rs) = dedupeGo seen rs from by simp [dedupeGo, h]]
        exact ih seen
      · rw [show dedupeGo seen (x :: rs) = x :: dedupeGo (rowKey x :: seen) rs from by
          simp [dedupeGo, h]]
        simp only [List.map_cons, List.nodup_cons]
        refine ⟨?_, ih (rowKey x :: seen)⟩
        intro hmem
        obtain ⟨r, hr, hkey⟩ := List.mem_map.mp hmem
        exact (dedupeGo_avoids rs (rowKey x :: seen) r hr) (hkey ▸ List.mem_cons_self _ _)

theorem dedupeGo_eq_self (l : List Row) :
    ∀ seen, (l.map rowKey).Nodup → (∀ r ∈ l, rowKey r ∉ seen) →
      dedupeGo seen l = l := by
  induction l with
  | nil => intro seen _ _; simp [dedupeGo]
  | cons x rs ih =>
      intro seen hnd hav
      rw [List.map_cons, List.nodup_cons] at hnd
      have hx : rowKey x ∉ seen := hav x (List.mem_cons_self x rs)
      rw [show dedupeGo seen (x :: rs) = x :: dedupeGo (rowKey x :: seen) rs from by
        simp [dedupeGo, hx]]
      congr 1
      apply ih
      · exact hnd.2
      · intro r hr
        intro hmem
        rcases List.mem_cons.mp hmem with heq | hseen
        · exact hnd.1 (heq ▸ List.mem_map_of_mem rowKey hr)
        · exact hav r (List.mem_cons_of_mem x hr) hseen

/-! ## Properties of the comparator and the sort -/

theorem string_toList_inj {a b : String} (h : a.toList = b.toList) : a = b := by
  cases a; cases b
  simp only [String.toList] at h
  exact congrArg String.mk h

theorem rowle_total (a b : Row) : rowle a b ∨ rowle b a := by
  by_cases h : a.package = b.package
  · unfold rowle
    rw [if_pos h, if_pos h.symm]
    exact le_total _ _
  · unfold rowle
    rw [if_neg h, if_neg (fun hc => h hc.symm)]
    rcases lt_trichotomy a.package.toList b.package.toList with hlt | heq | hgt
    · exact Or.inl hlt
    · exact absurd (string_toList_inj heq) h
    · exact Or.inr hgt

theorem rowle_trans (a b c : Row) : rowle a b → rowle b c → rowle a c := by
  intro h1 h2
  unfold rowle at h1 h2 ⊢
  by_cases hab : a.package = b.package <;> by_cases hbc : b.package = c.package
  · have hac : a.package = c.package := hab.trans hbc
    rw [if_pos hab] at h1
    rw [if_pos hbc] at h2
    rw [if_pos hac]
    exact le_trans h1 h2
  · have hac : a.package ≠ c.package := fun h => hbc (hab.symm.trans h)
    rw [if_pos hab] at h1
    rw [if_neg hbc] at h2
    rw [if_neg hac, hab]
    exact h2
  · have hac : a.package ≠ c.package := fun h => hab (h.trans hbc.symm)
    rw [if_neg hab] at h1
    rw [if_pos hbc] at h2
    rw [if_neg hac, ← hbc]
    exact h1
  · rw [if_neg hab] at h1
    rw [if_neg hbc] at h2
    have hlt : a.package.toList < c.package.toList := lt_trans h1 h2
    have hac : a.package ≠ c.package := by
      intro h
      rw [h] at hlt
      exact lt_irrefl _ hlt
    rw [if_neg hac]
    exact hlt

instance : IsTotal Row rowle := ⟨rowle_total⟩

instance : IsTrans Row rowle := ⟨rowle_trans⟩

theorem rowle_antisymm_fields {a b : Row} (h1 : rowle a b) (h2 : rowle b a) :
    a.package = b.package ∧ a.lockfilePath = b.lockfilePath := by
  by_cases h : a.package = b.package
  · refine ⟨h, ?_⟩
    unfold rowle at h1 h2
    rw [if_pos h] at h1
    rw [if_pos h.symm] at h2
    exact string_toList_inj (le_antisymm h1 h2)
  · unfold rowle at h1 h2
    rw [if_neg h] at h1
    rw [if_neg (fun hc => h hc.symm)] at h2
    exact absurd h2 (lt_asymm h1)

theorem sorted_perm_distinct_eq :
    ∀ {l₁ l₂ : List Row}, l₁.Perm l₂ → List.Sorted rowle l₁ → List.Sorted rowle l₂ →
      (∀ a ∈ l₁, ∀ b ∈ l₁, a.package = b.package → a.lockfilePath = b.lockfilePath → a = b) →
      l₁ = l₂ := by
  intro l₁
  induction l₁ with
  | nil =>
      intro l₂ hp _ _ _
      exact (hp.symm.eq_nil).symm
  | cons a t ih =>
      intro l₂ hp hs₁ hs₂ hdist
      cases l₂ with
      | nil => exact absurd hp.eq_nil (by simp)
      | cons b t₂ =>
          have hab : a = b := by
            by_cases heq : a = b
            · exact heq
            · have hbmem : b ∈ a :: t := hp.symm.subset (List.mem_cons_self b t₂)
              have hamem : a ∈ b :: t₂ := hp.subset (List.mem_cons_self a t)
              have hbt : b ∈ t := by
                rcases List.mem_cons.mp hbmem with h | h
                · exact absurd h.symm heq
                · exact h
              have hat : a ∈ t₂ := by
                rcases List.mem_cons.mp hamem with h | h
                · exact absurd h heq
                · exact h
              have h1 : rowle a b := (List.pairwise_cons.mp hs₁).1 b hbt
              have h2 : rowle b a := (List.pairwise_cons.mp hs₂).1 a hat
              have hf := rowle_antisymm_fields h1 h2
              exact hdist a (List.mem_cons_self a t) b (List.mem_cons_of_mem a hbt) hf.1 hf.2
          subst hab
          have hpt : t.Perm t₂ := hp.cons_inv
          have := ih hpt (List.pairwise_cons.mp hs₁).2 (List.pairwise_cons.mp hs₂).2
            (fun x hx y hy => hdist x (List.mem_cons_of_mem a hx) y (List.mem_cons_of_mem a hy))
          rw [this]

/-! ## Properties of the v1 dependency walk -/

theorem npmV1Walk_nil (path : String) : npmV1Walk path [] = [] := by
  simp [npmV1Walk]

theorem npmV1Walk_cons (path : String) (deps : JSVal) (rest : List JSVal) :
    npmV1Walk path (deps :: rest)
      = (jsEntries deps).flatMap (v1Emit path) ++
          npmV1Walk path (((jsEntries deps).filterMap pushOf).reverse ++ rest) := by
  rw [npmV1Walk]

theorem npmV1Walk_append (path : String) (s₂ : List JSVal) :
    ∀ (s₁ : List JSVal), npmV1Walk path (s₁ ++ s₂) = npmV1Walk path s₁ ++ npmV1Walk path s₂ := by
  have main : ∀ (n : Nat) (s₁ : List JSVal), (s₁.map sizeOf).sum ≤ n →
      npmV1Walk path (s₁ ++ s₂) = npmV1Walk path s₁ ++ npmV1Walk path s₂ := by
    intro n
    induction n using Nat.strong_induction_on with
    | _ n ih =>
        intro s₁ hle
        cases s₁ with
        | nil => simp [npmV1Walk_nil]
        | cons d t =>
            have hlt := pushes_sum_lt d
            have hsum : (((jsEntries d).filterMap pushOf).reverse.map sizeOf).sum
                < sizeOf d := by
              simpa [List.map_reverse, List.sum_reverse] using hlt
            rw [List.cons_append, npmV1Walk_cons, npmV1Walk_cons, ← List.append_assoc,
              ih ((((jsEntries d).filterMap pushOf).reverse ++ t).map sizeOf).sum
                (by
                  simp only [List.map_cons, List.sum_cons] at hle
                  simp only [List.map_append, List.sum_append]
                  omega)
                _ le_rfl,
              List.append_assoc]
  intro s₁
  exact main (s₁.map sizeOf).sum s₁ le_rfl

theorem npmV1Walk_targets (path : String) :
    ∀ (n : Nat) (stack : List JSVal), (stack.map sizeOf).sum ≤ n →
      ∀ r ∈ npmV1Walk path stack, r.package ∈ TARGETS := by
  intro n
  induction n using Nat.strong_induction_on with
  | _ n ih =>
      intro stack hle r hr
      cases stack with
      | nil => simp [npmV1Walk_nil] at hr
      | cons d t =>
          rw [npmV1Walk_cons] at hr
          rcases List.mem_append.mp hr with hemit | hrec
          · obtain ⟨e, _, he⟩ := List.mem_flatMap.mp hemit
            unfold v1Emit at he
            split at he
            · split at he
              · rename_i htgt
                rcases List.mem_singleton.mp he with rfl
                exact htgt
              · simp at he
            · simp at he
          · have hlt := pushes_sum_lt d
            refine ih ((((jsEntries d).filterMap pushOf).reverse ++ t).map sizeOf).sum
              (by
                simp only [List.map_cons, List.sum_cons] at hle
                simp only [List.map_append, List.sum_append, List.map_reverse, List.sum_reverse]
                omega)
              _ le_rfl r hrec

/-- A node of the v1 `dependencies` tree: either a direct entry of `deps`
with truthy metadata, or a node of the subtree below an entry's truthy
`dependencies` field. -/
inductive ReachNode : JSVal → String → JSVal → Prop where
  | entry {deps : JSVal} {name : String} {meta : JSVal}
      (hmem : (name, meta) ∈ jsEntries deps) (ht : truthy meta = true) :
      ReachNode deps name meta
  | nested {deps : JSVal} {n' : String} {m' : JSVal} {name : String} {meta : JSVal}
      (hmem : (n', m') ∈ jsEntries deps) (ht : truthy m' = true)
      (hd : truthy (getField m' "dependencies") = true)
      (hrec : ReachNode (getField m' "dependencies") name meta) :
      ReachNode deps name meta

theorem npmV1Walk_complete (path : String) {deps : JSVal} {name : String} {meta : JSVal}
    (h : ReachNode deps name meta) :
    name ∈ TARGETS → mkNpmRow name meta path ∈ npmV1Walk path [deps] := by
  induction h with
  | entry hmem ht =>
      intro htgt
      rw [npmV1Walk_cons]
      apply List.mem_append_left
      exact List.mem_flatMap.mpr ⟨_, hmem, by simp [v1Emit, ht, htgt]⟩
  | @nested deps' n' m' name' meta' hmem ht hd hrec ih =>
      intro htgt
      rw [npmV1Walk_cons]
      apply List.mem_append_right
      have hpush : getField m' "dependencies" ∈ ((jsEntries deps').filterMap pushOf).reverse := by
        rw [List.mem_reverse]
        exact List.mem_filterMap.mpr ⟨(n', m'), hmem, by simp [pushOf, ht, hd]⟩
      obtain ⟨u, v, huv⟩ := List.append_of_mem hpush
      rw [List.append_nil, huv]
      rw [show u ++ getField m' "dependencies" :: v
          = (u ++ [getField m' "dependencies"]) ++ v from by simp]
      rw [npmV1Walk_append, npmV1Walk_append]
      exact List.mem_append_left _ (List.mem_append_right _ (ih htgt))

/-! ## Specification-side definitions and refinement lemmas -/

theorem flatMap_guard_eq_filter_map {α β : Type} (l : List α) (p : α → Prop) [DecidablePred p]
    (f : α → β) :
    (l.flatMap (fun a => if p a then [f a] else [])) = (l.filter (fun a => decide (p a))).map f := by
  induction l with
  | nil => simp
  | cons a t ih => by_cases h : p a <;> simp [List.filter_cons, h, ih]

theorem getField_falsy {v : JSVal} (hv : truthy v = false) (k : String) :
    getField v k = vundef := by
  cases v <;> simp_all [truthy, getField]

theorem mkNpmRow_falsy (n : String) {v : JSVal} (hv : truthy v = false) (p : String) :
    mkNpmRow n (vobj []) p = mkNpmRow n v p := by
  unfold mkNpmRow
  rw [getField_falsy hv "version", getField_falsy hv "dev", getField_falsy hv "optional"]
  rfl

/-- Specification-side (amended claim 6) rendering of one `packages` entry:
the package name is the declared `name` field when that is present and
truthy, otherwise the last non-empty segment of the key split on
`node_modules/` with a trailing slash stripped; a record (with the entry's
version coerced to a string, empty when falsy, and `=== true` flags) is
emitted exactly when the resulting name is a non-empty target. -/
def npmEntryClaim (path : String) (kv : String × JSVal) : List Row :=
  let declared := getField kv.2 "name"
  let derived : Option String :=
    (((splitSeqL "node_modules/".toList kv.1.toList).filter (· ≠ [])).getLast?).map
      (fun seg => String.mk (if seg.getLast? = some '/' then seg.dropLast else seg))
  let chosen : Option String :=
    if truthy declared then
      match declared with
      | vstr s => some s
      | _ => none
    else derived
  match chosen with
  | some name => if name ∈ TARGETS ∧ name ≠ "" then [mkNpmRow name kv.2 path] else []
  | none => []

theorem npmPkgsEmit_eq_claim (path k : String) (v : JSVal) :
    npmPkgsEmit path k v = npmEntryClaim path (k, v) := by
  by_cases hv : truthy v = true
  · by_cases hn0 : truthy (getField v "name") = true
    · cases hgf : getField v "name" with
      | vstr s =>
          rw [hgf] at hn0
          simp only [npmPkgsEmit, npmDerivedNameV, npmEntryClaim, hv, if_true, hgf, hn0]
          by_cases hs : s = "" <;> by_cases ht : s ∈ TARGETS <;> simp [hs, ht]
      | vundef => rw [hgf] at hn0; simp [truthy] at hn0
      | vnull => rw [hgf] at hn0; simp [truthy] at hn0
      | vbool b =>
          rw [hgf] at hn0
          simp only [npmPkgsEmit, npmDerivedNameV, npmEntryClaim, hv, if_true, hgf, hn0]
      | vnum n =>
          rw [hgf] at hn0
          simp only [npmPkgsEmit, npmDerivedNameV, npmEntryClaim, hv, if_true, hgf, hn0]
      | varr xs =>
          rw [hgf] at hn0
          simp only [npmPkgsEmit, npmDerivedNameV, npmEntryClaim, hv, if_true, hgf, hn0]
      | vobj fs =>
          rw [hgf] at hn0
          simp only [npmPkgsEmit, npmDerivedNameV, npmEntryClaim, hv, if_true, hgf, hn0]
    · have hn : truthy (getField v "name") = false := by
        cases hh : truthy (getField v "name")
        · rfl
        · exact absurd hh hn0
      simp only [npmPkgsEmit, npmDerivedNameV, npmEntryClaim, hv, if_true, hn, Bool.false_eq_true, if_false]
      cases hlast : ((splitSeqL "node_modules/".toList k.toList).filter (· ≠ [])).getLast? with
      | some seg =>
          simp only [hlast, Option.map_some]
          by_cases hs : String.mk (if seg.getLast? = some '/' then seg.dropLast else seg) = "" <;>
            by_cases ht :
              String.mk (if seg.getLast? = some '/' then seg.dropLast else seg) ∈ TARGETS <;>
            simp [hs, ht]
      | none =>
          simp only [hlast, Option.map_none]
          cases hgf : getField v "name" with
          | vstr s =>
              rw [hgf] at hn
              have hs : s = "" := by simpa [truthy] using hn
              subst hs
              simp
          | vundef => simp
          | vnull => simp
          | vbool b => rfl
          | vnum n => rfl
          | varr xs => rw [hgf] at hn; simp [truthy] at hn
          | vobj fs => rw [hgf] at hn; simp [truthy] at hn
  · have hv' : truthy v = false := by
      cases hh : truthy v
      · rfl
      · exact absurd hh hv
    have hname : getField v "name" = vundef := getField_falsy hv' "name"
    simp only [npmPkgsEmit, npmDerivedNameV, npmEntryClaim, hv', Bool.false_eq_true, if_false, hname]
    simp only [show getField (vobj []) "name" = vundef from rfl]
    simp only [show truthy vundef = false from rfl, Bool.false_eq_true, if_false]
    cases hlast : ((splitSeqL "node_modules/".toList k.toList).filter (· ≠ [])).getLast? with
    | some seg =>
        simp only [hlast, Option.map_some]
        by_cases hs : String.mk (if seg.getLast? = some '/' then seg.dropLast else seg) = "" <;>
          by_cases ht :
            String.mk (if seg.getLast? = some '/' then seg.dropLast else seg) ∈ TARGETS <;>
          simp [hs, ht, mkNpmRow_falsy _ hv']
    | none => simp [hlast]

theorem flatMap_congr_mem {α β : Type} {l : List α} {f g : α → List β}
    (h : ∀ a ∈ l, f a = g a) : l.flatMap f = l.flatMap g := by
  induction l with
  | nil => simp
  | cons a t ih =>
      simp only [List.flatMap_cons]
      rw [h a (List.mem_cons_self a t), ih (fun x hx => h x (List.mem_cons_of_mem a hx))]

theorem flatMap_keys_eq (pkgs : List (String × JSVal)) (f : String → JSVal → List Row)
    (hnd : (pkgs.map Prod.fst).Nodup) :
    (pkgs.map Prod.fst).flatMap (fun k => f k (lookupField pkgs k))
      = pkgs.flatMap (fun kv => f kv.1 kv.2) := by
  induction pkgs with
  | nil => simp
  | cons kv rest ih =>
      rw [List.map_cons, List.nodup_cons] at hnd
      rw [List.map_cons, List.flatMap_cons, List.flatMap_cons]
      have hhead : lookupField (kv :: rest) kv.1 = kv.2 := by
        cases kv
        simp [lookupField]
      have htail : (rest.map Prod.fst).flatMap (fun k => f k (lookupField (kv :: rest) k))
          = (rest.map Prod.fst).flatMap (fun k => f k (lookupField rest k)) := by
        apply flatMap_congr_mem
        intro k hk
        have hne : kv.1 ≠ k := fun hc => hnd.1 (hc ▸ hk)
        cases kv
        simp only [lookupField]
        rw [if_neg hne]
      rw [hhead, htail, ih hnd.2]

theorem extract_packages_eq_claim (pkgs : List (String × JSVal)) (path : String)
    (hnd : (pkgs.map Prod.fst).Nodup) :
    extractFromNpmLock (vobj [("packages", vobj pkgs)]) path
      = pkgs.flatMap (npmEntryClaim path) := by
  unfold extractFromNpmLock
  have hpk : getField (vobj [("packages", vobj pkgs)]) "packages" = vobj pkgs := by
    simp [getField, lookupField]
  have hdeps : getField (vobj [("packages", vobj pkgs)]) "dependencies" = vundef := by
    simp [getField, lookupField]
  rw [hpk, hdeps]
  simp only [show truthy (vobj [("packages", vobj pkgs)]) = true from rfl,
    show truthy (vobj pkgs) = true from rfl, show typeofObject (vobj pkgs) = true from rfl,
    show truthy (vundef : JSVal) = false from rfl, Bool.and_self, Bool.true_and,
    Bool.false_and, Bool.and_false, if_true, Bool.false_eq_true, if_false, List.append_nil]
  rw [show jsKeys (vobj pkgs) = pkgs.map Prod.fst from rfl]
  rw [show (getField (vobj pkgs) : String → JSVal) = lookupField pkgs from rfl]
  rw [flatMap_keys_eq pkgs (fun k v => npmPkgsEmit path k v) hnd]
  apply flatMap_congr_mem
  intro kv _
  exact npmPkgsEmit_eq_claim path kv.1 kv.2

/-- Specification-side (amended claim 8) rendering of one dependency
bucket of a manifest: when the field holds an object, each entry whose name
is a target yields one record with the bucket's fixed flags and the range
coerced to a string when truthy, the empty string when the range is falsy. -/
def pkgJsonBucketClaim (pkgJson : JSVal) (field : String) (dv op : Bool) (path : String) :
    List Row :=
  let deps := getField pkgJson field
  if truthy deps && typeofObject deps then
    ((jsEntries deps).filter (fun e => decide (e.1 ∈ TARGETS))).map (fun e =>
      { package := e.1, version := if truthy e.2 then jsToString e.2 else "",
        dev := dv, optional := op, source := "package-json", lockfilePath := path })
  else []

/-- Specification-side claim 8: exactly the three fixed buckets, in order. -/
def pkgJsonClaim (pkgJson : JSVal) (path : String) : List Row :=
  pkgJsonBucketClaim pkgJson "dependencies" false false path ++
    pkgJsonBucketClaim pkgJson "devDependencies" true false path ++
      pkgJsonBucketClaim pkgJson "optionalDependencies" false true path

theorem pkgJsonBucket_eq (p : JSVal) (field : String) (dv op : Bool) (path : String) :
    (if truthy (getField p field) && typeofObject (getField p field) then
       (jsEntries (getField p field)).flatMap (fun e =>
         if e.1 ∈ TARGETS then
           [{ package := e.1, version := if truthy e.2 then jsToString e.2 else "",
              dev := dv, optional := op, source := "package-json", lockfilePath := path }]
         else [])
     else [])
    = pkgJsonBucketClaim p field dv op path := by
  unfold pkgJsonBucketClaim
  by_cases hc : (truthy (getField p field) && typeofObject (getField p field)) = true
  · rw [if_pos hc, if_pos hc]
    exact flatMap_guard_eq_filter_map _ _ _
  · rw [if_neg hc, if_neg hc]

theorem extractFromPackageJson_eq_claim (p : JSVal) (path : String) :
    extractFromPackageJson p path = pkgJsonClaim p path := by
  unfold extractFromPackageJson pkgJsonClaim
  simp only [List.flatMap_cons, List.flatMap_nil, List.append_nil]
  rw [pkgJsonBucket_eq, pkgJsonBucket_eq, pkgJsonBucket_eq, List.append_assoc]

/-- Specification-side claim 9 selector names of a block: the names derived
from the header selectors that are targets, independent of any version
line. -/
def yarnClaimNames (block : List Char) : List String :=
  if block = [] then []
  else
    if yarnHeader block = [] || (yarnHeader block).take 1 = ['#'] then []
    else
      ((headerSelectorsL (yarnHeader block)).filterMap
        (fun sel => selectorToPkgName (String.mk sel))).filter (fun n => decide (n ∈ TARGETS))

theorem flatMap_selector_eq (sels : List (List Char)) (path version : String) :
    (sels.flatMap (fun sel =>
      (match selectorToPkgName (String.mk sel) with
      | none => []
      | some name =>
          if name ∈ TARGETS then
            [{ package := name, version := version, dev := false, optional := false,
               source := "yarn-lock", lockfilePath := path }]
          else [] : List Row)))
    = ((sels.filterMap (fun sel => selectorToPkgName (String.mk sel))).filter
        (fun n => decide (n ∈ TARGETS))).map (fun n =>
          { package := n, version := version, dev := false, optional := false,
            source := "yarn-lock", lockfilePath := path }) := by
  induction sels with
  | nil => simp
  | cons s t ih =>
      simp only [List.flatMap_cons, List.filterMap_cons]
      cases h : selectorToPkgName (String.mk s) with
      | none => simpa [h] using ih
      | some n =>
          by_cases ht : n ∈ TARGETS <;> simp [h, List.filter_cons, ht, ih]

theorem yarnBlockRows_eq_claim (block : List Char) (path : String) :
    yarnBlockRows block path
      = (yarnClaimNames block).map (fun n =>
          { package := n, version := yarnBlockVersion (yarnLines block), dev := false,
            optional := false, source := "yarn-lock", lockfilePath := path }) := by
  unfold yarnBlockRows yarnClaimNames
  by_cases hb : block = []
  · simp [hb]
  · rw [if_neg hb, if_neg hb]
    by_cases hh : (yarnHeader block = [] || (yarnHeader block).take 1 = ['#']) = true
    · rw [if_pos hh, if_pos hh]
      simp
    · rw [if_neg hh, if_neg hh]
      exact flatMap_selector_eq _ _ _

theorem yarnBlockVersion_of_no_line (lines : List (List Char))
    (h : ∀ l ∈ lines, startsWithL "version ".toList l = false) :
    yarnBlockVersion lines = "" := by
  unfold yarnBlockVersion
  rw [List.find?_eq_none.mpr (fun l hl => by simpa using h l hl)]

/-! ## Properties of the selector name derivation -/

theorem lastIdxOf_eq_none_of_not_mem {c : Char} : ∀ {l : List Char}, c ∉ l → lastIdxOf c l = none := by
  intro l
  induction l with
  | nil => intro _; rfl
  | cons a rest ih =>
      intro h
      rw [lastIdxOf, ih (fun hm => h (List.mem_cons_of_mem a hm))]
      have hne : ¬ a = c := fun hc => h (List.mem_cons.mpr (Or.inl hc.symm))
      rw [if_neg hne]

theorem lastIdxOf_append_last {c : Char} (r : List Char) (hr : c ∉ r) :
    ∀ (n : List Char), lastIdxOf c (n ++ c :: r) = some n.length := by
  intro n
  induction n with
  | nil =>
      rw [List.nil_append, lastIdxOf, lastIdxOf_eq_none_of_not_mem hr, if_pos rfl]
      rfl
  | cons a rest ih =>
      rw [List.cons_append, lastIdxOf, ih]
      rfl

/-! ## Target membership of emitted records -/

theorem npmPkgsEmit_targets {path k : String} {v : JSVal} {r : Row}
    (h : r ∈ npmPkgsEmit path k v) : r.package ∈ TARGETS := by
  unfold npmPkgsEmit at h
  rcases hw : npmDerivedNameV k (if truthy v = true then v else vobj []) with
    _ | _ | b | n | name | xs | fs <;> rw [hw] at h <;> try simp at h
  obtain ⟨⟨_, htgt⟩, rfl⟩ := h
  exact htgt

theorem yarnBlockRows_targets {block : List Char} {path : String} {r : Row}
    (h : r ∈ yarnBlockRows block path) : r.package ∈ TARGETS := by
  rw [yarnBlockRows_eq_claim] at h
  obtain ⟨n, hn, rfl⟩ := List.mem_map.mp h
  unfold yarnClaimNames at hn
  split at hn
  · simp at hn
  · split at hn
    · simp at hn
    · simpa using List.of_mem_filter hn

theorem pkgJsonBucketClaim_targets {p : JSVal} {field : String} {dv op : Bool} {path : String}
    {r : Row} (h : r ∈ pkgJsonBucketClaim p field dv op path) : r.package ∈ TARGETS := by
  simp only [pkgJsonBucketClaim] at h
  split at h
  · obtain ⟨e, he, rfl⟩ := List.mem_map.mp h
    simpa using List.of_mem_filter he
  · simp at h

theorem truthy_of_getField_truthy {v : JSVal} {k : String}
    (h : truthy (getField v k) = true) : truthy v = true := by
  cases v <;> simp [getField, truthy] at h ⊢

theorem aggregateRows_sorted (rows : List Row) : List.Sorted rowle (aggregateRows rows) :=
  List.Pairwise.sublist (dedupeGo_sublist _ []) (List.sorted_insertionSort rowle rows)

/-! ## The claims -/

/-- Claim C1: for every input (JSON value or raw text) and path, every
record emitted by any of the three extraction routines has its `package`
field equal to a member of the target set; no record for a non-target
package is ever produced. -/
theorem claim1_no_nontarget_leakage :
    ∀ (path : String) (r : Row),
      (∀ lockJson : JSVal, r ∈ extractFromNpmLock lockJson path → r.package ∈ TARGETS) ∧
      (∀ text : String, r ∈ extractFromYarnLockV1 text path → r.package ∈ TARGETS) ∧
      (∀ pkgJson : JSVal, r ∈ extractFromPackageJson pkgJson path → r.package ∈ TARGETS) := by
  intro path r
  refine ⟨?_, ?_, ?_⟩
  · intro lockJson h
    simp only [extractFromNpmLock] at h
    rcases List.mem_append.mp h with h23 | h1
    · split at h23
      · obtain ⟨k, _, hk⟩ := List.mem_flatMap.mp h23
        exact npmPkgsEmit_targets hk
      · simp at h23
    · split at h1
      · exact npmV1Walk_targets path _ _ le_rfl r h1
      · simp at h1
  · intro text h
    unfold extractFromYarnLockV1 at h
    obtain ⟨b, _, hb⟩ := List.mem_flatMap.mp h
    exact yarnBlockRows_targets hb
  · intro pkgJson h
    rw [extractFromPackageJson_eq_claim] at h
    unfold pkgJsonClaim at h
    rcases List.mem_append.mp h with h12 | h3
    · rcases List.mem_append.mp h12 with h1 | h2
      · exact pkgJsonBucketClaim_targets h1
      · exact pkgJsonBucketClaim_targets h2
    · exact pkgJsonBucketClaim_targets h3

theorem claim1_witness : ("is" : String) ∈ TARGETS :=
  (claim1_no_nontarget_leakage "P"
      { package := "is", version := "3.3.0", dev := false, optional := false,
        source := "npm-lock", lockfilePath := "P" }).1
    (vobj [("packages", vobj [("node_modules/is", vobj [("version", vstr "3.3.0")])])])
    (by simp +decide [extractFromNpmLock, npmPkgsEmit, npmDerivedNameV, truthy, typeofObject,
      getField, lookupField, jsKeys, mkNpmRow, splitSeqL, splitSeqGo, jsToString,
      isLiterallyTrue, TARGETS])

/-- The non-object top-level inputs of claim C10: `null`, `undefined`, a
number, a string, or a boolean. -/
def nonObjectTop (v : JSVal) : Prop :=
  v = vnull ∨ v = vundef ∨ (∃ n, v = vnum n) ∨ (∃ s, v = vstr s) ∨ (∃ b, v = vbool b)

/-- Claim C10: for every non-object top-level input (null, undefined, a
number, a string, a boolean), `extractFromNpmLock` and
`extractFromPackageJson` return the empty record sequence (they are total
functions of the input; no exception is modelled or needed). -/
theorem claim10_nonobject_inputs :
    ∀ (v : JSVal) (path : String), nonObjectTop v →
      extractFromNpmLock v path = [] ∧ extractFromPackageJson v path = [] := by
  intro v path h
  rcases h with rfl | rfl | ⟨n, rfl⟩ | ⟨s, rfl⟩ | ⟨b, rfl⟩ <;>
    exact ⟨by simp [extractFromNpmLock, getField, truthy, typeofObject],
      by simp [extractFromPackageJson, getField, truthy, typeofObject]⟩

theorem claim10_witness :
    extractFromNpmLock (vnum 7) "p" = [] ∧ extractFromPackageJson (vnum 7) "p" = [] :=
  claim10_nonobject_inputs (vnum 7) "p" (Or.inr (Or.inr (Or.inl ⟨7, rfl⟩)))

/-- Claim C2 counterexample: two distinct records that tie on both sort
keys (same `package` and `lockfilePath`, different `version`).  The two
orders of the same multiset give different Aggregator outputs, so the
comparator is not a total order on records and permutation invariance
fails as claimed. -/
theorem claim2_counterexample :
    List.Perm
      [({ package := "is", version := "1", dev := false, optional := false,
          source := "npm-lock", lockfilePath := "P" } : Row),
       { package := "is", version := "2", dev := false, optional := false,
          source := "npm-lock", lockfilePath := "P" }]
      [({ package := "is", version := "2", dev := false, optional := false,
          source := "npm-lock", lockfilePath := "P" } : Row),
       { package := "is", version := "1", dev := false, optional := false,
          source := "npm-lock", lockfilePath := "P" }] ∧
    aggregateRows
      [({ package := "is", version := "1", dev := false, optional := false,
          source := "npm-lock", lockfilePath := "P" } : Row),
       { package := "is", version := "2", dev := false, optional := false,
          source := "npm-lock", lockfilePath := "P" }]
      ≠ aggregateRows
      [({ package := "is", version := "2", dev := false, optional := false,
          source := "npm-lock", lockfilePath := "P" } : Row),
       { package := "is", version := "1", dev := false, optional := false,
          source := "npm-lock", lockfilePath := "P" }] := by
  constructor
  · exact List.Perm.swap _ _ _
  · decide

/-- Claim C2 (amended): the comparator `rowle` (primary key `package`,
secondary key `lockfilePath`) is total and transitive — a total preorder
determined solely by those two fields, though not antisymmetric on records;
the Aggregator output is sorted by it and sorting it again changes
nothing; and two permutations of the same records produce the same output
provided no two distinct records share both `package` and `lockfilePath`
(records tying on both keys keep their input order, so permutations may
reorder them). -/
theorem claim2_ordering :
    (∀ a b : Row, rowle a b ∨ rowle b a) ∧
    (∀ a b c : Row, rowle a b → rowle b c → rowle a c) ∧
    (∀ rows : List Row, List.Sorted rowle (aggregateRows rows)) ∧
    (∀ rows : List Row, sortRows (aggregateRows rows) = aggregateRows rows) ∧
    (∀ l₁ l₂ : List Row, l₁.Perm l₂ →
      (∀ a ∈ l₁, ∀ b ∈ l₁, a.package = b.package → a.lockfilePath = b.lockfilePath → a = b) →
      aggregateRows l₁ = aggregateRows l₂) := by
  refine ⟨rowle_total, rowle_trans, aggregateRows_sorted, ?_, ?_⟩
  · intro rows
    exact (aggregateRows_sorted rows).insertionSort_eq
  · intro l₁ l₂ hp hdist
    unfold aggregateRows
    congr 1
    apply sorted_perm_distinct_eq
    · exact ((List.perm_insertionSort rowle l₁).trans hp).trans
        (List.perm_insertionSort rowle l₂).symm
    · exact List.sorted_insertionSort rowle l₁
    · exact List.sorted_insertionSort rowle l₂
    · intro a ha b hb
      exact hdist a ((List.perm_insertionSort rowle l₁).mem_iff.mp ha)
        b ((List.perm_insertionSort rowle l₁).mem_iff.mp hb)

theorem claim2_witness :
    aggregateRows
      [({ package := "is", version := "1", dev := false, optional := false,
          source := "npm-lock", lockfilePath := "P" } : Row),
       { package := "synckit", version := "2", dev := false, optional := false,
          source := "npm-lock", lockfilePath := "P" }]
      = aggregateRows
      [({ package := "synckit", version := "2", dev := false, optional := false,
          source := "npm-lock", lockfilePath := "P" } : Row),
       { package := "is", version := "1", dev := false, optional := false,
          source := "npm-lock", lockfilePath := "P" }] :=
  claim2_ordering.2.2.2.2 _ _ (List.Perm.swap _ _ _) (by decide)

/-- Claim C3 counterexample: two records identical except for the `dev`
flag.  Their deduplication keys coincide (the key omits `dev` and
`optional`), so the later record is dropped — they are not both retained
as the claim states. -/
theorem claim3_counterexample :
    dedupeRows
      [({ package := "is", version := "1.0.0", dev := false, optional := false,
          source := "npm-lock", lockfilePath := "P" } : Row),
       { package := "is", version := "1.0.0", dev := true, optional := false,
          source := "npm-lock", lockfilePath := "P" }]
      = [{ package := "is", version := "1.0.0", dev := false, optional := false,
           source := "npm-lock", lockfilePath := "P" }] ∧
    ({ package := "is", version := "1.0.0", dev := false, optional := false,
       source := "npm-lock", lockfilePath := "P" } : Row)
      ≠ { package := "is", version := "1.0.0", dev := true, optional := false,
          source := "npm-lock", lockfilePath := "P" } := by
  constructor
  · decide
  · decide

/-- Claim C3 (amended): for every list of records, deduplication keeps the
first record bearing each key string
`lockfilePath::package::version::source` and drops every later record
whose key matches an earlier one.  An identical 4-tuple always gives an
identical key, and since the key omits `dev` and `optional`, two records
differing only in those flags also collapse to the first. -/
theorem claim3_dedupe_first_occurrence :
    ∀ rows : List Row, dedupeRows rows = dedupeFirstOccurrence rows :=
  dedupeRows_eq_firstOcc

/-- Claim C4: the Aggregator (sort followed by deduplication) is
idempotent. -/
theorem claim4_aggregator_idempotent :
    ∀ rows : List Row, aggregateRows (aggregateRows rows) = aggregateRows rows := by
  intro rows
  have hsorted : List.Sorted rowle (aggregateRows rows) := aggregateRows_sorted rows
  conv_lhs => rw [aggregateRows,
    show sortRows (aggregateRows rows) = aggregateRows rows from hsorted.insertionSort_eq]
  exact dedupeGo_eq_self _ [] (dedupeGo_keys_nodup _ []) (by simp)

/-- Claim C5: after stripping wrapping quotes, a selector's package name is
the text before the last `@`; a selector with no `@`, or whose only `@` is
the first character, yields no name; `"@pkgr/core@^1.0.0"` derives
`@pkgr/core`, and a bare `@invalid` header yields no record. -/
theorem claim5_selector_last_at :
    (∀ (sel : String) (n r : List Char),
        stripQuoteRuns sel.toList = n ++ '@' :: r → '@' ∉ r → n ≠ [] →
        selectorToPkgName sel = some (String.mk n)) ∧
    (∀ sel : String, '@' ∉ stripQuoteRuns sel.toList → selectorToPkgName sel = none) ∧
    (∀ (sel : String) (r : List Char),
        stripQuoteRuns sel.toList = '@' :: r → '@' ∉ r → selectorToPkgName sel = none) ∧
    selectorToPkgName "@pkgr/core@^1.0.0" = some "@pkgr/core" ∧
    extractFromYarnLockV1 "@invalid:\n  version \"1.0.0\"" "P" = [] := by
  refine ⟨?_, ?_, ?_, ?_, ?_⟩
  · intro sel n r hdec hr hn
    unfold selectorToPkgName jsLastIndexOf
    rw [hdec, lastIdxOf_append_last r hr n]
    have hlen : 0 < n.length := List.length_pos.mpr hn
    rw [if_neg (by
      simp only [not_le]
      exact_mod_cast hlen)]
    rw [show ((n.length : Int)).toNat = n.length from Int.toNat_natCast n.length]
    rw [List.take_left]
  · intro sel h
    unfold selectorToPkgName jsLastIndexOf
    rw [lastIdxOf_eq_none_of_not_mem h]
    rfl
  · intro sel r hdec hr
    unfold selectorToPkgName jsLastIndexOf
    have h0 : lastIdxOf '@' ('@' :: r) = some 0 := by
      have := lastIdxOf_append_last r hr []
      simpa using this
    rw [hdec, h0]
    rfl
  · decide
  · simp +decide [extractFromYarnLockV1, splitBlocksL, yarnBlockRows, yarnLines, yarnHeader,
      trimL, dropWhileEnd, wsChar, splitOnCharL, headerSelectorsL, yarnBlockVersion,
      quotedVersionCapture, startsWithL, selectorToPkgName, stripQuoteRuns, lastIdxOf,
      jsLastIndexOf, TARGETS]

theorem claim5_witness : selectorToPkgName "is@^3.0.0" = some "is" :=
  claim5_selector_last_at.1 "is@^3.0.0" ['i', 's'] ['^', '3', '.', '0', '.', '0']
    (by decide) (by decide) (by decide)

/-- Claim C6 counterexample: a `packages` entry whose `name` field is
present but empty.  The claim says the emitted package name is the
declared `name` field when present (here the empty string, which is not a
target, so no record should be emitted); the code treats the falsy `""` as
absent, derives `is` from the key, and does emit a record. -/
theorem claim6_counterexample :
    extractFromNpmLock
      (vobj [("packages", vobj [("node_modules/is",
        vobj [("name", vstr ""), ("version", vstr "1.0.0")])])]) "P"
      = [{ package := "is", version := "1.0.0", dev := false, optional := false,
           source := "npm-lock", lockfilePath := "P" }] ∧ ("" : String) ≠ "is" := by
  constructor
  · simp +decide [extractFromNpmLock, npmPkgsEmit, npmDerivedNameV, truthy, typeofObject,
      getField, lookupField, jsKeys, mkNpmRow, splitSeqL, splitSeqGo, jsToString,
      isLiterallyTrue, TARGETS]
  · decide

/-- Claim C6 (amended): for every npm-lock v2/v3 `packages` mapping with
distinct keys, the emitted records are exactly those described per entry by
`npmEntryClaim`: the package name is the declared `name` field when that is
present and truthy, otherwise the last non-empty segment of the key split
on `node_modules/` with a trailing slash stripped; a matched entry's record
carries the entry's version coerced to a string (empty when absent or
falsy) and its `dev`/`optional` flags (true only when literally `true`).
In particular the example lockfile gives exactly the claimed record. -/
theorem claim6_packages_naming :
    (∀ (pkgs : List (String × JSVal)) (path : String), (pkgs.map Prod.fst).Nodup →
        extractFromNpmLock (vobj [("packages", vobj pkgs)]) path
          = pkgs.flatMap (npmEntryClaim path)) ∧
    extractFromNpmLock
      (vobj [("packages", vobj [("node_modules/is", vobj [("version", vstr "3.3.0")])])]) "P"
      = [{ package := "is", version := "3.3.0", dev := false, optional := false,
           source := "npm-lock", lockfilePath := "P" }] := by
  constructor
  · exact extract_packages_eq_claim
  · simp +decide [extractFromNpmLock, npmPkgsEmit, npmDerivedNameV, truthy, typeofObject,
      getField, lookupField, jsKeys, mkNpmRow, splitSeqL, splitSeqGo, jsToString,
      isLiterallyTrue, TARGETS]

theorem claim6_witness :
    extractFromNpmLock (vobj [("packages", vobj [("node_modules/synckit", vobj [])])]) "Q"
      = [("node_modules/synckit", vobj [])].flatMap (npmEntryClaim "Q") :=
  claim6_packages_naming.1 [("node_modules/synckit", vobj [])] "Q" (by decide)

/-- Claim C7: the npm v1 `dependencies` branch reaches every node of the
nested tree — a record for any reachable target node is in the output —
and it is scanned in addition to (not instead of) the v2/v3 `packages`
branch when both fields are present; the nested `is` of the example is
discovered. -/
theorem claim7_v1_traversal :
    (∀ (lockJson : JSVal) (path name : String) (meta : JSVal),
        truthy (getField lockJson "dependencies") = true →
        typeofObject (getField lockJson "dependencies") = true →
        ReachNode (getField lockJson "dependencies") name meta →
        name ∈ TARGETS →
        mkNpmRow name meta path ∈ extractFromNpmLock lockJson path) ∧
    (∀ (pkgsVal depsVal : JSVal) (path : String),
        extractFromNpmLock (vobj [("packages", pkgsVal), ("dependencies", depsVal)]) path
          = extractFromNpmLock (vobj [("packages", pkgsVal)]) path
            ++ extractFromNpmLock (vobj [("dependencies", depsVal)]) path) ∧
    extractFromNpmLock
      (vobj [("dependencies", vobj [("a", vobj [("version", vstr "1.0.0"),
        ("dependencies", vobj [("is", vobj [("version", vstr "2.0.0")])])])])]) "P"
      = [{ package := "is", version := "2.0.0", dev := false, optional := false,
           source := "npm-lock", lockfilePath := "P" }] := by
  refine ⟨?_, ?_, ?_⟩
  · intro lockJson path name meta hdep htype hreach htgt
    have hlj : truthy lockJson = true := truthy_of_getField_truthy hdep
    simp only [extractFromNpmLock]
    apply List.mem_append_right
    rw [if_pos (by simp [hlj, hdep, htype])]
    exact npmV1Walk_complete path hreach htgt
  · intro pkgsVal depsVal path
    simp only [extractFromNpmLock]
    have h1 : getField (vobj [("packages", pkgsVal), ("dependencies", depsVal)]) "packages"
        = pkgsVal := by simp [getField, lookupField]
    have h2 : getField (vobj [("packages", pkgsVal), ("dependencies", depsVal)]) "dependencies"
        = depsVal := by simp [getField, lookupField]
    have h3 : getField (vobj [("packages", pkgsVal)]) "packages" = pkgsVal := by
      simp [getField, lookupField]
    have h4 : getField (vobj [("packages", pkgsVal)]) "dependencies" = vundef := by
      simp [getField, lookupField]
    have h5 : getField (vobj [("dependencies", depsVal)]) "packages" = vundef := by
      simp [getField, lookupField]
    have h6 : getField (vobj [("dependencies", depsVal)]) "dependencies" = depsVal := by
      simp [getField, lookupField]
    rw [h1, h2, h3, h4, h5, h6]
    simp [truthy, typeofObject]
  · simp +decide [extractFromNpmLock, npmV1Walk, truthy, typeofObject, getField, lookupField,
      jsKeys, jsEntries, v1Emit, pushOf, mkNpmRow, jsToString, isLiterallyTrue, TARGETS]

theorem claim7_witness :
    mkNpmRow "is" (vobj [("version", vstr "2.0.0")]) "P"
      ∈ extractFromNpmLock
          (vobj [("dependencies", vobj [("is", vobj [("version", vstr "2.0.0")])])]) "P" :=
  claim7_v1_traversal.1
    (vobj [("dependencies", vobj [("is", vobj [("version", vstr "2.0.0")])])]) "P" "is"
    (vobj [("version", vstr "2.0.0")])
    (by decide) (by decide)
    (ReachNode.entry (by simp [getField, lookupField, jsEntries]) (by decide))
    (by decide)

/-- Claim C8 counterexample: a dependency range that is present but falsy
without being nullish (`false`).  The claim says the version is the range
coerced to a string — `String(false)` is `"false"` — and empty exactly when
the range is absent or nullish; the code emits the empty string instead. -/
theorem claim8_counterexample :
    extractFromPackageJson (vobj [("dependencies", vobj [("is", vbool false)])]) "P"
      = [{ package := "is", version := "", dev := false, optional := false,
           source := "package-json", lockfilePath := "P" }] ∧
    jsToString (vbool false) = "false" := by
  constructor
  · simp +decide [extractFromPackageJson, truthy, typeofObject, getField, lookupField,
      jsEntries, jsToString, TARGETS]
  · simp [jsToString]

/-- Claim C8 (amended): the manifest routine examines exactly the three
top-level fields `dependencies` (dev false/optional false),
`devDependencies` (true/false) and `optionalDependencies` (false/true);
for every target name in a field that holds an object it emits one record
with source `package-json` whose version is the range coerced to a string
when the range is truthy and the empty string exactly when the range is
falsy (absent, null, false, 0, or empty); missing or non-object fields
contribute nothing.  The example manifest gives exactly the claimed
record. -/
theorem claim8_manifest_buckets :
    (∀ (pkgJson : JSVal) (path : String),
        extractFromPackageJson pkgJson path = pkgJsonClaim pkgJson path) ∧
    extractFromPackageJson (vobj [("devDependencies", vobj [("synckit", vstr "^0.10.0")])]) "P"
      = [{ package := "synckit", version := "^0.10.0", dev := true, optional := false,
           source := "package-json", lockfilePath := "P" }] := by
  constructor
  · exact extractFromPackageJson_eq_claim
  · simp +decide [extractFromPackageJson, truthy, typeofObject, getField, lookupField,
      jsEntries, jsToString, TARGETS]

/-- Claim C9 counterexample: a block whose `version` line carries an
unquoted value.  A line beginning with `version ` exists, yet the emitted
record's version is the empty string — so the version is not "empty exactly
when no such line exists". -/
theorem claim9_counterexample :
    extractFromYarnLockV1 "is@^1.0.0:\n  version 1.2.3" "P"
      = [{ package := "is", version := "", dev := false, optional := false,
           source := "yarn-lock", lockfilePath := "P" }] ∧
    (yarnLines (trimL "is@^1.0.0:\n  version 1.2.3".toList)).any
        (fun l => startsWithL "version ".toList l) = true := by
  constructor
  · simp +decide [extractFromYarnLockV1, splitBlocksL, yarnBlockRows, yarnLines, yarnHeader,
      trimL, dropWhileEnd, wsChar, splitOnCharL, headerSelectorsL, yarnBlockVersion,
      quotedVersionCapture, startsWithL, selectorToPkgName, stripQuoteRuns, lastIdxOf,
      jsLastIndexOf, TARGETS]
  · decide

/-- Claim C9 (amended): within a block, every emitted record carries the
block version — the quoted capture of the first trimmed line beginning
with `version `, the empty string when that line lacks a double-quoted
value or no such line exists — and the records are exactly the target
selector names paired with that shared version, so a block with no version
line still has all its selectors processed with empty version. -/
theorem claim9_block_version :
    (∀ (block : List Char) (path : String),
        yarnBlockRows block path
          = (yarnClaimNames block).map (fun n =>
              { package := n, version := yarnBlockVersion (yarnLines block), dev := false,
                optional := false, source := "yarn-lock", lockfilePath := path })) ∧
    (∀ block : List Char,
        (∀ l ∈ yarnLines block, startsWithL "version ".toList l = false) →
        yarnBlockVersion (yarnLines block) = "") :=
  ⟨yarnBlockRows_eq_claim, fun _ h => yarnBlockVersion_of_no_line _ h⟩

theorem claim9_witness : yarnBlockVersion (yarnLines "is@^1:".toList) = "" :=
  claim9_block_version.2 "is@^1:".toList (by decide)
